import Mathlib

/-!
Formal model of the vector-backed associative container `LinearMap`
(src/lib.rs).  The map's storage is a growable sequence of key-value
pairs; lookups are linear scans from the front, insertion replaces a
value in place or appends a fresh pair, and removal is swap-based
(`Vec::swap_remove`).  The storage is embedded as `List (K × V)` and
every public operation becomes a pure function on that state.
-/

namespace LinearMap

variable {α : Type}
variable {K V : Type} [DecidableEq K] [DecidableEq V]

/-- Linear-scan lookup (`LinearMap::get`): the value of the first pair
whose key equals the queried key, scanning front-to-back. -/
def get (k : K) : List (K × V) → Option V
  | [] => none
  | p :: t => if k = p.1 then some p.2 else get k t

/-- Presence test (`LinearMap::contains_key`), defined as `get` yielding a value. -/
def contains_key (k : K) (s : List (K × V)) : Bool :=
  (get k s).isSome

/-- Index of the first pair whose key equals `k`, as computed by
`LinearMap::entry` via `Iterator::position`; equals `s.length` when no
pair matches. -/
def findIdxK (k : K) (s : List (K × V)) : Nat :=
  s.findIdx (fun p => k == p.1)

/-- Model of `Vec::swap_remove i`: the last element is moved into slot
`i` and the length shrinks by one. -/
def swapRemoveAt (s : List α) (i : Nat) (h : i < s.length) : List α :=
  (s.set i (s.getLast (List.length_pos.mp (Nat.lt_of_le_of_lt (Nat.zero_le i) h)))).dropLast

/-- Insertion (`LinearMap::insert`): dispatches through `entry`; when a
pair with the key exists, its value is replaced in place
(`OccupiedEntry::insert`, key untouched) and the previous value is
returned; otherwise the pair is appended (`VacantEntry::insert`). -/
def insert (k : K) (v : V) (s : List (K × V)) : Option V × List (K × V) :=
  if h : findIdxK k s < s.length then
    (some s[findIdxK k s].2, s.set (findIdxK k s) (s[findIdxK k s].1, v))
  else
    (none, s ++ [(k, v)])

/-- Removal (`LinearMap::remove`): scans for the first matching pair;
when found at index `i`, `Vec::swap_remove i` removes it and the removed
value is returned; otherwise the map is unchanged. -/
def remove (k : K) (s : List (K × V)) : Option V × List (K × V) :=
  if h : findIdxK k s < s.length then
    (some s[findIdxK k s].2, swapRemoveAt s (findIdxK k s) h)
  else
    (none, s)

/-- Model of `LinearMap::clear`: all pairs are removed. -/
def clear (_ : List (K × V)) : List (K × V) := []

/-- Bulk insertion (`Extend::extend`): each supplied pair is inserted in
sequence order. -/
def extend : List (K × V) → List (K × V) → List (K × V)
  | s, [] => s
  | s, (k, v) :: t => extend (insert k v s).2 t

/-- Construction from an iterable (`FromIterator::from_iter`): extend an
empty map with the supplied pairs. -/
def from_iter (l : List (K × V)) : List (K × V) :=
  extend [] l

/-- Conversion into the plain pair sequence (`Into<Vec<(K, V)>>`): the
storage itself, in current storage order. -/
def into_vec (s : List (K × V)) : List (K × V) := s

/-- Structural equality (`PartialEq for LinearMap`): false when the
lengths differ, otherwise every pair of `s` must be found in `t` with an
equal value. -/
def mapEq (s t : List (K × V)) : Bool :=
  decide (s.length = t.length) && s.all (fun p => get p.1 t == some p.2)

/-- Model of `Entry::or_insert`: `entry` locates the key once; an
occupied entry is turned into a reference to the stored value
(`OccupiedEntry::into_mut`) leaving the map unchanged, a vacant entry
appends the default (`VacantEntry::insert`).  The returned component is
the value the caller's mutable reference designates. -/
def or_insert (k : K) (d : V) (s : List (K × V)) : V × List (K × V) :=
  if h : findIdxK k s < s.length then
    (s[findIdxK k s].2, s)
  else
    (d, s ++ [(k, d)])

/-- Model of `Entry::or_insert_with`: as `or_insert`, with the default
produced by invoking the supplied closure in the vacant case. -/
def or_insert_with (k : K) (f : Unit → V) (s : List (K × V)) : V × List (K × V) :=
  if h : findIdxK k s < s.length then
    (s[findIdxK k s].2, s)
  else
    (f (), s ++ [(k, f ())])

/-- Indexed access (`ops::Index`): `get` followed by `Option::expect`;
the error case models the panic on an absent key. -/
def index (k : K) (s : List (K × V)) : Except Unit V :=
  match get k s with
  | some v => Except.ok v
  | none => Except.error ()

/-- Forward step of a slice iterator (`Iterator::next` on `Iter`,
`IterMut`, `IntoIter`, `Drain`): the front element and the remaining
state. -/
def iterNext : List α → Option (α × List α)
  | [] => none
  | a :: t => some (a, t)

/-- Backward step of a slice iterator (`DoubleEndedIterator::next_back`):
the back element and the remaining state. -/
def iterNextBack : List α → Option (α × List α)
  | [] => none
  | a :: t => some ((a :: t).getLast (List.cons_ne_nil a t), (a :: t).dropLast)

/-- Exact remaining count reported by the iterators
(`ExactSizeIterator::len` / `size_hint`): the length of the remaining
state. -/
def iterLen (l : List α) : Nat := l.length

/-- Drive an iterator by a sequence of direction choices (`true` steps
from the front, `false` from the back); returns the elements yielded in
production order together with the remaining state. -/
def applySteps : List Bool → List α → List α × List α
  | [], l => ([], l)
  | d :: ds, l =>
    match (if d then iterNext l else iterNextBack l) with
    | none => ([], l)
    | some (a, rest) =>
      let r := applySteps ds rest
      (a :: r.1, r.2)

/-- Forward step of the `Keys` iterator: the wrapped pairs iterator's
step, projected to the key. -/
def keysNext (l : List (K × V)) : Option (K × List (K × V)) :=
  (iterNext l).map (fun r => (r.1.1, r.2))

/-- Backward step of the `Keys` iterator. -/
def keysNextBack (l : List (K × V)) : Option (K × List (K × V)) :=
  (iterNextBack l).map (fun r => (r.1.1, r.2))

/-- Forward step of the `Values` iterator: the wrapped pairs iterator's
step, projected to the value. -/
def valuesNext (l : List (K × V)) : Option (V × List (K × V)) :=
  (iterNext l).map (fun r => (r.1.2, r.2))

/-- Backward step of the `Values` iterator. -/
def valuesNextBack (l : List (K × V)) : Option (V × List (K × V)) :=
  (iterNextBack l).map (fun r => (r.1.2, r.2))

/-- Drive the `Keys` iterator by a sequence of direction choices. -/
def keysSteps : List Bool → List (K × V) → List K × List (K × V)
  | [], l => ([], l)
  | d :: ds, l =>
    match (if d then keysNext l else keysNextBack l) with
    | none => ([], l)
    | some (a, rest) =>
      let r := keysSteps ds rest
      (a :: r.1, r.2)

/-- Drive the `Values` iterator by a sequence of direction choices. -/
def valuesSteps : List Bool → List (K × V) → List V × List (K × V)
  | [], l => ([], l)
  | d :: ds, l =>
    match (if d then valuesNext l else valuesNextBack l) with
    | none => ([], l)
    | some (a, rest) =>
      let r := valuesSteps ds rest
      (a :: r.1, r.2)

/-- Model of `LinearMap::drain`, which wraps `Vec::drain(..)`: the first
component is the sequence the draining iterator yields (front-to-back,
the whole storage) and the second is the map once draining completes. -/
def drain (s : List (K × V)) : List (K × V) × List (K × V) :=
  (s, [])

/-- Key uniqueness: no two pairs of the storage have equal keys. -/
def KeysUnique (s : List (K × V)) : Prop :=
  s.Pairwise (fun p q => p.1 ≠ q.1)

/-- Value stored for `q` by the last pair of `l` whose key equals `q`,
if any. -/
def lastVal (q : K) (l : List (K × V)) : Option V :=
  (l.reverse.find? (fun p => q == p.1)).map Prod.snd

/-- Keys occurring in `l` that are absent from the map `s`. -/
def newKeys (s : List (K × V)) (l : List (K × V)) : Finset K :=
  ((l.map Prod.fst).filter (fun q => (get q s).isNone)).toFinset

/-- States reachable from the public constructors by the public mutating
operations: `new`/`with_capacity` (empty storage), `insert`, `remove`,
`clear`, the entry handles' `or_insert`/`or_insert_with`,
`OccupiedEntry::insert`, `OccupiedEntry::remove`, `VacantEntry::insert`
(only created by `entry` when the scan found no match), `extend`,
`from_iter` and `drain`. -/
inductive Reachable : List (K × V) → Prop where
  | new : Reachable []
  | step_insert (k : K) (v : V) {s : List (K × V)} :
      Reachable s → Reachable (insert k v s).2
  | step_remove (k : K) {s : List (K × V)} :
      Reachable s → Reachable (remove k s).2
  | step_clear {s : List (K × V)} :
      Reachable s → Reachable (clear s)
  | step_or_insert (k : K) (d : V) {s : List (K × V)} :
      Reachable s → Reachable (or_insert k d s).2
  | step_or_insert_with (k : K) (f : Unit → V) {s : List (K × V)} :
      Reachable s → Reachable (or_insert_with k f s).2
  | step_occupied_insert (k : K) (v : V) {s : List (K × V)}
      (h : findIdxK k s < s.length) :
      Reachable s →
      Reachable (s.set (findIdxK k s) (s[findIdxK k s].1, v))
  | step_occupied_remove (k : K) {s : List (K × V)}
      (h : findIdxK k s < s.length) :
      Reachable s → Reachable (swapRemoveAt s (findIdxK k s) h)
  | step_vacant_insert (k : K) (v : V) {s : List (K × V)}
      (h : ¬ findIdxK k s < s.length) :
      Reachable s → Reachable (s ++ [(k, v)])
  | step_extend (l : List (K × V)) {s : List (K × V)} :
      Reachable s → Reachable (extend s l)
  | step_from_iter (l : List (K × V)) : Reachable (from_iter l)
  | step_drain {s : List (K × V)} :
      Reachable s → Reachable (drain s).2

/-! Bridge lemmas between the linear scan `get` and the index scan
`findIdxK` (both traverse the storage front-to-back and stop at the
first key match). -/

theorem get_eq_none_iff {k : K} {s : List (K × V)} :
    get k s = none ↔ ∀ p ∈ s, p.1 ≠ k := by
  induction s with
  | nil => simp [get]
  | cons p t ih =>
    by_cases h : k = p.1
    · simp [get, h]
    · simp [get, h, ih, Ne.symm h]

theorem get_isSome_iff {k : K} {s : List (K × V)} :
    (get k s).isSome ↔ ∃ p ∈ s, p.1 = k := by
  induction s with
  | nil => simp [get]
  | cons p t ih =>
    by_cases h : k = p.1
    · simp [get, h]
    · simp [get, h, ih, Ne.symm h]

theorem findIdxK_lt_iff {k : K} {s : List (K × V)} :
    findIdxK k s < s.length ↔ (get k s).isSome := by
  rw [findIdxK, List.findIdx_lt_length, get_isSome_iff]
  constructor
  · rintro ⟨x, hx, he⟩
    exact ⟨x, hx, (beq_iff_eq.mp he).symm⟩
  · rintro ⟨p, hp, he⟩
    exact ⟨p, hp, by simp [he]⟩

theorem key_at_findIdxK {k : K} {s : List (K × V)} (h : findIdxK k s < s.length) :
    s[findIdxK k s].1 = k := by
  have h1 : s.findIdx (fun p : K × V => k == p.1) < s.length := h
  have h2 := @List.findIdx_getElem _ (fun p : K × V => k == p.1) s h1
  simp only [beq_iff_eq] at h2
  exact h2.symm

theorem key_before_findIdxK {k : K} {s : List (K × V)} {j : Nat}
    (hj : j < s.length) (hlt : j < findIdxK k s) : s[j].1 ≠ k := by
  have hlt2 : j < s.findIdx (fun p => k == p.1) := hlt
  have h2 := List.not_of_lt_findIdx hlt2
  simp only [beq_eq_false_iff_ne, ne_eq] at h2
  exact fun hc => h2 hc.symm

theorem get_eq_some_findIdxK {k : K} {s : List (K × V)} (h : findIdxK k s < s.length) :
    get k s = some s[findIdxK k s].2 := by
  induction s with
  | nil => simp at h
  | cons p t ih =>
    by_cases hk : k = p.1
    · simp [get, hk, findIdxK, List.findIdx_cons]
    · have hcons : findIdxK k (p :: t) = findIdxK k t + 1 := by
        simp [findIdxK, List.findIdx_cons, Bool.cond_eq_if, beq_iff_eq, hk]
      have ht : findIdxK k t < t.length := by
        have h2 := h
        rw [hcons] at h2
        simpa using h2
      have hgoal : (p :: t)[findIdxK k (p :: t)].2 = t[findIdxK k t].2 := by
        simp only [hcons, List.getElem_cons_succ]
      rw [show get k (p :: t) = get k t from by simp [get, hk]]
      rw [ih ht, hgoal]

theorem get_first_match {k : K} {s : List (K × V)} {i : Nat} (hi : i < s.length)
    (hk : s[i].1 = k) (hb : ∀ j (hj : j < s.length), j < i → s[j].1 ≠ k) :
    get k s = some s[i].2 := by
  have hfind : findIdxK k s = i := by
    rw [findIdxK, List.findIdx_eq hi]
    refine ⟨by simp [hk], ?_⟩
    intro j hji
    have hjs : j < s.length := Nat.lt_trans hji hi
    have hne := hb j hjs hji
    simp only [beq_eq_false_iff_ne, ne_eq]
    exact fun hc => hne hc.symm
  have hlt : findIdxK k s < s.length := by rw [hfind]; exact hi
  rw [get_eq_some_findIdxK hlt]
  simp only [hfind]

theorem get_append {k : K} {s t : List (K × V)} :
    get k (s ++ t) = (get k s).or (get k t) := by
  induction s with
  | nil => simp [get]
  | cons p u ih =>
    by_cases h : k = p.1
    · simp [get, h]
    · simp [get, h, ih]

theorem get_eq_none_of_ge {k : K} {s : List (K × V)} (h : ¬ findIdxK k s < s.length) :
    get k s = none := by
  have h2 := mt findIdxK_lt_iff.mpr h
  exact Option.not_isSome_iff_eq_none.mp h2

theorem insert_eq_of_lt {k : K} {v : V} {s : List (K × V)} (h : findIdxK k s < s.length) :
    insert k v s = (some s[findIdxK k s].2, s.set (findIdxK k s) (s[findIdxK k s].1, v)) := by
  simp [insert, h]

theorem insert_eq_of_ge {k : K} {v : V} {s : List (K × V)} (h : ¬ findIdxK k s < s.length) :
    insert k v s = (none, s ++ [(k, v)]) := by
  simp [insert, h]

theorem fst_insert {k : K} {v : V} {s : List (K × V)} : (insert k v s).1 = get k s := by
  by_cases h : findIdxK k s < s.length
  · rw [get_eq_some_findIdxK h]
    simp [insert, h]
  · simp [insert, h, get_eq_none_of_ge h]

theorem length_insert {k : K} {v : V} {s : List (K × V)} :
    (insert k v s).2.length = if (get k s).isSome then s.length else s.length + 1 := by
  by_cases h : findIdxK k s < s.length
  · simp [insert, h, findIdxK_lt_iff.mp h]
  · simp [insert, h, get_eq_none_of_ge h]

theorem get_set_of_key_ne {q : K} {s : List (K × V)} {i : Nat} {a : K × V}
    (hi : i < s.length) (ha : a.1 = s[i].1) (hq : q ≠ s[i].1) :
    get q (s.set i a) = get q s := by
  induction s generalizing i with
  | nil => simp at hi
  | cons p t ih =>
    cases i with
    | zero =>
      have hq0 : q ≠ p.1 := by simpa using hq
      have ha0 : a.1 = p.1 := by simpa using ha
      have hqa : q ≠ a.1 := by rw [ha0]; exact hq0
      simp [get, hq0, hqa]
    | succ n =>
      have hn : n < t.length := by simpa using hi
      have hqn : q ≠ t[n].1 := by simpa using hq
      have han : a.1 = t[n].1 := by simpa using ha
      by_cases hp : q = p.1
      · simp [get, hp]
      · simp [get, hp, ih hn han hqn]

theorem get_insert {q k : K} {v : V} {s : List (K × V)} :
    get q (insert k v s).2 = if q = k then some v else get q s := by
  by_cases h : findIdxK k s < s.length
  · rw [insert_eq_of_lt h]
    by_cases hq : q = k
    · subst hq
      rw [if_pos rfl]
      have hlen : findIdxK q s < (s.set (findIdxK q s) (s[findIdxK q s].1, v)).length := by
        simpa using h
      have hkey : (s.set (findIdxK q s) (s[findIdxK q s].1, v))[findIdxK q s].1 = q := by
        simp [key_at_findIdxK h]
      have hval : (s.set (findIdxK q s) (s[findIdxK q s].1, v))[findIdxK q s].2 = v := by
        simp
      have hb : ∀ j (hj : j < (s.set (findIdxK q s) (s[findIdxK q s].1, v)).length),
          j < findIdxK q s → (s.set (findIdxK q s) (s[findIdxK q s].1, v))[j].1 ≠ q := by
        intro j hj hji
        have hjs : j < s.length := by simpa using hj
        have hne : j ≠ findIdxK q s := Nat.ne_of_lt hji
        rw [List.getElem_set_ne (Ne.symm hne)]
        exact key_before_findIdxK hjs hji
      rw [get_first_match hlen hkey hb, hval]
    · rw [if_neg hq]
      exact get_set_of_key_ne h rfl (by rw [key_at_findIdxK h]; exact hq)
  · rw [insert_eq_of_ge h, get_append]
    by_cases hq : q = k
    · subst hq
      rw [get_eq_none_of_ge h]
      simp [get]
    · have h1 : get q [(k, v)] = none := by simp [get, hq]
      simp [h1, hq]

/-! Key uniqueness and its preservation by every mutating operation. -/

theorem keysUnique_iff_nodup {s : List (K × V)} :
    KeysUnique s ↔ (s.map Prod.fst).Nodup := by
  unfold KeysUnique List.Nodup
  rw [List.pairwise_map]

theorem keysUnique_nil : KeysUnique ([] : List (K × V)) :=
  List.Pairwise.nil

theorem keysUnique_append_of_absent {k : K} {v : V} {s : List (K × V)}
    (hu : KeysUnique s) (h : get k s = none) : KeysUnique (s ++ [(k, v)]) := by
  rw [KeysUnique, List.pairwise_append]
  refine ⟨hu, by simp, ?_⟩
  intro a ha b hb
  have hb1 : b = (k, v) := by simpa using hb
  subst hb1
  exact get_eq_none_iff.mp h a ha

theorem set_getElem_self {l : List α} {i : Nat} (h : i < l.length) :
    l.set i l[i] = l := by
  induction l generalizing i with
  | nil => simp at h
  | cons a t ih =>
    cases i with
    | zero => simp
    | succ n =>
      have hn : n < t.length := by simpa using h
      simp [ih hn]

theorem keysUnique_insert {k : K} {v : V} {s : List (K × V)} (hu : KeysUnique s) :
    KeysUnique (insert k v s).2 := by
  by_cases h : findIdxK k s < s.length
  · rw [insert_eq_of_lt h]
    rw [keysUnique_iff_nodup] at hu ⊢
    have hm : findIdxK k s < (s.map Prod.fst).length := by simpa using h
    have hmap : (s.set (findIdxK k s) (s[findIdxK k s].1, v)).map Prod.fst = s.map Prod.fst := by
      rw [List.map_set]
      have hidx : (s.map Prod.fst)[findIdxK k s] = s[findIdxK k s].1 := by simp
      calc (s.map Prod.fst).set (findIdxK k s) (s[findIdxK k s].1, v).1
          = (s.map Prod.fst).set (findIdxK k s) (s.map Prod.fst)[findIdxK k s] := by
            rw [hidx]
        _ = s.map Prod.fst := set_getElem_self hm
    rw [hmap]
    exact hu
  · rw [insert_eq_of_ge h]
    exact keysUnique_append_of_absent hu (get_eq_none_of_ge h)

theorem length_swapRemoveAt {s : List α} {i : Nat} (h : i < s.length) :
    (swapRemoveAt s i h).length = s.length - 1 := by
  simp [swapRemoveAt]

theorem getElem_swapRemoveAt {s : List α} {i j : Nat} (h : i < s.length)
    (hj : j < (swapRemoveAt s i h).length) :
    (swapRemoveAt s i h)[j] =
      if j = i then s.get ⟨s.length - 1, by omega⟩
      else s.get ⟨j, by rw [length_swapRemoveAt] at hj; omega⟩ := by
  simp only [List.get_eq_getElem]
  unfold swapRemoveAt
  simp only [List.getElem_dropLast, List.getElem_set, List.getLast_eq_getElem]
  by_cases he : i = j
  · subst he
    simp
  · simp [he, Ne.symm he]

theorem keysUnique_swapRemoveAt {s : List (K × V)} {i : Nat} (h : i < s.length)
    (hu : KeysUnique s) : KeysUnique (swapRemoveAt s i h) := by
  rw [KeysUnique, List.pairwise_iff_getElem] at hu ⊢
  intro a b ha hb hab
  have ha1 : a < s.length - 1 := by
    have := ha
    rwa [length_swapRemoveAt] at this
  have hb1 : b < s.length - 1 := by
    have := hb
    rwa [length_swapRemoveAt] at this
  rw [getElem_swapRemoveAt h ha, getElem_swapRemoveAt h hb]
  simp only [List.get_eq_getElem]
  by_cases hae : a = i
  · subst hae
    have hbe : ¬ b = a := Nat.ne_of_gt hab
    rw [if_pos rfl, if_neg hbe]
    have hblt : b < s.length - 1 := hb1
    exact (hu b (s.length - 1) (Nat.lt_of_lt_of_le hb1 (Nat.sub_le _ _)) (by omega) hblt).symm
  · by_cases hbe : b = i
    · subst hbe
      rw [if_neg hae, if_pos rfl]
      exact hu a (s.length - 1) (by omega) (by omega) (by omega)
    · rw [if_neg hae, if_neg hbe]
      exact hu a b (by omega) (by omega) hab

theorem remove_eq_of_lt {k : K} {s : List (K × V)} (h : findIdxK k s < s.length) :
    remove k s = (some s[findIdxK k s].2, swapRemoveAt s (findIdxK k s) h) := by
  simp [remove, h]

theorem remove_eq_of_ge {k : K} {s : List (K × V)} (h : ¬ findIdxK k s < s.length) :
    remove k s = (none, s) := by
  simp [remove, h]

theorem keysUnique_remove {k : K} {s : List (K × V)} (hu : KeysUnique s) :
    KeysUnique (remove k s).2 := by
  by_cases h : findIdxK k s < s.length
  · rw [remove_eq_of_lt h]
    exact keysUnique_swapRemoveAt h hu
  · rw [remove_eq_of_ge h]
    exact hu

theorem or_insert_eq_of_lt {k : K} {d : V} {s : List (K × V)} (h : findIdxK k s < s.length) :
    or_insert k d s = (s[findIdxK k s].2, s) := by
  simp [or_insert, h]

theorem or_insert_eq_of_ge {k : K} {d : V} {s : List (K × V)} (h : ¬ findIdxK k s < s.length) :
    or_insert k d s = (d, s ++ [(k, d)]) := by
  simp [or_insert, h]

theorem keysUnique_or_insert {k : K} {d : V} {s : List (K × V)} (hu : KeysUnique s) :
    KeysUnique (or_insert k d s).2 := by
  by_cases h : findIdxK k s < s.length
  · rw [or_insert_eq_of_lt h]
    exact hu
  · rw [or_insert_eq_of_ge h]
    exact keysUnique_append_of_absent hu (get_eq_none_of_ge h)

theorem keysUnique_or_insert_with {k : K} {f : Unit → V} {s : List (K × V)}
    (hu : KeysUnique s) : KeysUnique (or_insert_with k f s).2 := by
  by_cases h : findIdxK k s < s.length
  · simpa [or_insert_with, h] using hu
  · simp only [or_insert_with, dif_neg h]
    exact keysUnique_append_of_absent hu (get_eq_none_of_ge h)

theorem keysUnique_extend {s : List (K × V)} (l : List (K × V)) (hu : KeysUnique s) :
    KeysUnique (extend s l) := by
  induction l generalizing s with
  | nil => simpa [extend] using hu
  | cons p t ih =>
    obtain ⟨k, v⟩ := p
    simpa [extend] using ih (keysUnique_insert hu)

theorem keysUnique_from_iter {l : List (K × V)} : KeysUnique (from_iter l) := by
  unfold from_iter
  exact keysUnique_extend l keysUnique_nil

theorem keysUnique_index_inj {s : List (K × V)} {i j : Nat} (hu : KeysUnique s)
    (hi : i < s.length) (hj : j < s.length) (he : s[i].1 = s[j].1) : i = j := by
  rw [KeysUnique, List.pairwise_iff_getElem] at hu
  rcases Nat.lt_trichotomy i j with h | h | h
  · exact absurd he (hu i j hi hj h)
  · exact h
  · exact absurd he.symm (hu j i hj hi h)

/-- C3: key uniqueness is an invariant: every map reachable from the public
constructors (`new`, `with_capacity`, `from_iter`) by the public mutating
operations (`insert`, `remove`, `clear`, the entry handles, `extend`,
`drain`) has no two stored pairs with equal keys. -/
theorem C3_keys_unique_invariant {s : List (K × V)} (h : Reachable s) : KeysUnique s := by
  induction h with
  | new => exact keysUnique_nil
  | step_insert k v _ ih => exact keysUnique_insert ih
  | step_remove k _ ih => exact keysUnique_remove ih
  | step_clear _ ih => exact keysUnique_nil
  | step_or_insert k d _ ih => exact keysUnique_or_insert ih
  | step_or_insert_with k f _ ih => exact keysUnique_or_insert_with ih
  | step_occupied_insert k v hf _ ih =>
    have h2 := keysUnique_insert (k := k) (v := v) ih
    rwa [insert_eq_of_lt hf] at h2
  | step_occupied_remove k hf _ ih => exact keysUnique_swapRemoveAt hf ih
  | step_vacant_insert k v hg _ ih =>
    exact keysUnique_append_of_absent ih (get_eq_none_of_ge hg)
  | step_extend l _ ih => exact keysUnique_extend l ih
  | step_from_iter l => exact keysUnique_from_iter
  | step_drain _ ih => exact keysUnique_nil

/-- Witness for C3: a concrete state reached by two insertions satisfies the
invariant. -/
theorem C3_keys_unique_invariant_witness :
    KeysUnique ((insert 1 2 ((insert 0 1 ([] : List (Nat × Nat))).2)).2) :=
  C3_keys_unique_invariant
    (Reachable.step_insert 1 2 (Reachable.step_insert 0 1 Reachable.new))

/-- C1: `insert` first scans for an existing pair with the key.  If one is
present, its value is replaced in place: the previous value is returned
wrapped in `some`, the length is unchanged, every position keeps its key,
and every pair whose key differs from the inserted key is untouched.  If
none is present, the pair is appended at the end: `none` is returned, the
length grows by one, and all pre-existing pairs keep their positions.  In
both cases a subsequent `get` on the key yields the new value. -/
theorem C1_insert_spec (s : List (K × V)) (k : K) (v : V) :
    (∀ w, get k s = some w →
      (insert k v s).1 = some w
      ∧ (insert k v s).2.length = s.length
      ∧ (∀ j : Nat, ((insert k v s).2[j]?).map Prod.fst = (s[j]?).map Prod.fst)
      ∧ (∀ (j : Nat) (p : K × V), s[j]? = some p → p.1 ≠ k → (insert k v s).2[j]? = some p))
  ∧ (get k s = none →
      (insert k v s).1 = none
      ∧ (insert k v s).2 = s ++ [(k, v)]
      ∧ (insert k v s).2.length = s.length + 1
      ∧ (∀ j : Nat, j < s.length → (insert k v s).2[j]? = s[j]?))
  ∧ get k (insert k v s).2 = some v := by
  refine ⟨?_, ?_, ?_⟩
  · intro w hw
    have hs : (get k s).isSome := by simp [hw]
    have h : findIdxK k s < s.length := findIdxK_lt_iff.mpr hs
    refine ⟨by rw [fst_insert, hw], by rw [length_insert, if_pos hs], ?_, ?_⟩
    · intro j
      rw [insert_eq_of_lt h, List.getElem?_set]
      by_cases hij : findIdxK k s = j
      · subst hij
        simp [h]
      · simp [hij]
    · intro j p hp hpk
      rw [insert_eq_of_lt h, List.getElem?_set]
      have hij : findIdxK k s ≠ j := by
        intro he
        subst he
        rw [List.getElem?_eq_getElem h] at hp
        have hsp : s[findIdxK k s] = p := Option.some.inj hp
        exact hpk (by rw [← hsp]; exact key_at_findIdxK h)
      simp [hij, hp]
  · intro hnone
    have h : ¬ findIdxK k s < s.length := by
      rw [findIdxK_lt_iff, hnone]
      simp
    rw [insert_eq_of_ge h]
    refine ⟨rfl, rfl, by simp, ?_⟩
    intro j hj
    exact List.getElem?_append_left hj
  · rw [get_insert]
    simp

/-- Witness for C1: replacing under an existing key and appending under a
fresh key, at concrete inputs. -/
theorem C1_insert_spec_witness :
    (insert 1 99 [(1, 10), (2, 20)]).1 = some 10
    ∧ get 1 (insert 1 99 [(1, 10), (2, 20)]).2 = some 99
    ∧ (insert 2 5 ([] : List (Nat × Nat))).2 = [(2, 5)] := by
  have h := C1_insert_spec [(1, 10), (2, 20)] 1 99
  have h2 := C1_insert_spec ([] : List (Nat × Nat)) 2 5
  exact ⟨(h.1 10 (by decide)).1, h.2.2, (h2.2.1 (by decide)).2.1⟩

/-- C2: `remove` with a key stored at index `i` returns that pair's value,
shrinks the length by one, makes the key absent, keeps every surviving
pair other than position `i` in place, and moves the formerly-last pair
into slot `i` when `i` was not the last index; `remove` with an absent key
returns `none` and leaves the map unchanged. -/
theorem C2_remove_spec (s : List (K × V)) (hu : KeysUnique s) (k : K) :
    (∀ i, ∀ hi : i < s.length, s[i].1 = k →
      (remove k s).1 = some s[i].2
      ∧ (remove k s).2.length = s.length - 1
      ∧ get k (remove k s).2 = none
      ∧ contains_key k (remove k s).2 = false
      ∧ (∀ j : Nat, j < s.length - 1 → j ≠ i → (remove k s).2[j]? = s[j]?)
      ∧ (i < s.length - 1 → (remove k s).2[i]? = s[s.length - 1]?))
  ∧ (get k s = none → remove k s = (none, s)) := by
  constructor
  · intro i hi hk
    have hsome : (get k s).isSome := get_isSome_iff.mpr ⟨s[i], List.getElem_mem hi, hk⟩
    have h : findIdxK k s < s.length := findIdxK_lt_iff.mpr hsome
    have hfind : findIdxK k s = i :=
      keysUnique_index_inj hu h hi (by rw [key_at_findIdxK h, hk])
    have hrem : remove k s = (some s[findIdxK k s].2, swapRemoveAt s (findIdxK k s) h) :=
      remove_eq_of_lt h
    have hgetnone : get k (swapRemoveAt s (findIdxK k s) h) = none := by
      rw [get_eq_none_iff]
      intro p hp
      rw [List.mem_iff_getElem] at hp
      obtain ⟨j, hjlt, hjp⟩ := hp
      have hj1 : j < s.length - 1 := by rwa [length_swapRemoveAt] at hjlt
      rw [getElem_swapRemoveAt h hjlt] at hjp
      by_cases hji : j = findIdxK k s
      · rw [if_pos hji] at hjp
        intro hpk
        have hlast : s.length - 1 < s.length := by omega
        have he : s[s.length - 1].1 = k := by
          rw [← hjp] at hpk
          simpa using hpk
        have h3 := keysUnique_index_inj hu hlast h (by rw [he, key_at_findIdxK h])
        omega
      · rw [if_neg hji] at hjp
        intro hpk
        have hjs : j < s.length := by omega
        have he : s[j].1 = k := by
          rw [← hjp] at hpk
          simpa using hpk
        have h3 := keysUnique_index_inj hu hjs h (by rw [he, key_at_findIdxK h])
        exact hji h3
    rw [hrem]
    refine ⟨by simp only [hfind], by simp [length_swapRemoveAt], hgetnone,
      by simp [contains_key, hgetnone], ?_, ?_⟩
    · intro j hj hne
      have hjlt : j < (swapRemoveAt s (findIdxK k s) h).length := by
        rw [length_swapRemoveAt]
        omega
      have hjs : j < s.length := by omega
      rw [List.getElem?_eq_getElem hjlt, getElem_swapRemoveAt h hjlt,
        if_neg (by rw [hfind]; exact hne)]
      simp [List.getElem?_eq_getElem hjs]
    · intro hi1
      have hilt : i < (swapRemoveAt s (findIdxK k s) h).length := by
        rw [length_swapRemoveAt]
        omega
      have hlast : s.length - 1 < s.length := by omega
      rw [List.getElem?_eq_getElem hilt, getElem_swapRemoveAt h hilt,
        if_pos hfind.symm]
      simp [List.getElem?_eq_getElem hlast]
  · intro hnone
    have h : ¬ findIdxK k s < s.length := by
      rw [findIdxK_lt_iff, hnone]
      simp
    exact remove_eq_of_ge h

/-- Witness for C2: removing a present key at index 0 of a three-element
map, and removing an absent key, at concrete inputs. -/
theorem C2_remove_spec_witness :
    (remove 1 [(1, 10), (2, 20), (3, 30)]).1 = some 10
    ∧ (remove 1 [(1, 10), (2, 20), (3, 30)]).2[0]? = some (3, 30)
    ∧ remove 9 [(1, 10), (2, 20), (3, 30)] = (none, [(1, 10), (2, 20), (3, 30)]) := by
  have hu : KeysUnique [(1, 10), (2, 20), (3, 30)] := by
    rw [keysUnique_iff_nodup]
    decide
  have h := C2_remove_spec [(1, 10), (2, 20), (3, 30)] hu 1
  have hocc := h.1 0 (by decide) (by decide)
  refine ⟨hocc.1, ?_, (C2_remove_spec [(1, 10), (2, 20), (3, 30)] hu 9).2 (by decide)⟩
  have hmov := hocc.2.2.2.2.2 (by decide)
  exact hmov.trans (by decide)

theorem get_of_mem_unique {k : K} {v : V} {s : List (K × V)} (hu : KeysUnique s)
    (hm : (k, v) ∈ s) : get k s = some v := by
  induction s with
  | nil => simp at hm
  | cons p t ih =>
    rw [List.mem_cons] at hm
    rw [KeysUnique, List.pairwise_cons] at hu
    rcases hm with hm | hm
    · rw [← hm]
      simp [get]
    · have hne : p.1 ≠ k := hu.1 (k, v) hm
      show (if k = p.1 then some p.2 else get k t) = some v
      rw [if_neg (Ne.symm hne)]
      exact ih hu.2 hm

theorem extend_eq_append {s l : List (K × V)} (hl : KeysUnique l)
    (hd : ∀ p ∈ l, get p.1 s = none) : extend s l = s ++ l := by
  induction l generalizing s with
  | nil => simp [extend]
  | cons p t ih =>
    obtain ⟨k, v⟩ := p
    rw [KeysUnique, List.pairwise_cons] at hl
    have hkn : get k s = none := hd (k, v) (List.mem_cons_self _ _)
    have hins : insert k v s = (none, s ++ [(k, v)]) := by
      apply insert_eq_of_ge
      rw [findIdxK_lt_iff, hkn]
      simp
    show extend (insert k v s).2 t = s ++ (k, v) :: t
    rw [hins]
    have hd2 : ∀ p ∈ t, get p.1 (s ++ [(k, v)]) = none := by
      intro q hq
      rw [get_append, hd q (List.mem_cons_of_mem _ hq)]
      have hqk : q.1 ≠ k := Ne.symm (hl.1 q hq)
      simp [get, hqk]
    rw [ih hl.2 hd2]
    simp

theorem from_iter_unique {l : List (K × V)} (hl : KeysUnique l) : from_iter l = l := by
  unfold from_iter
  rw [extend_eq_append hl (by intro p _; simp [get])]
  simp

theorem mapEq_iff {s t : List (K × V)} :
    mapEq s t = true ↔ s.length = t.length ∧ ∀ p ∈ s, get p.1 t = some p.2 := by
  unfold mapEq
  simp [List.all_eq_true]

theorem keysUnique_reverse {l : List (K × V)} (hl : KeysUnique l) :
    KeysUnique l.reverse := by
  rw [KeysUnique, List.pairwise_reverse]
  exact hl.imp fun h => Ne.symm h

/-- C4: two maps are equal under the structural equality exactly when they
have the same length and every pair of the first is found in the second
with an equal value; in particular, equality is order-independent: a map
built from a distinct-key pair list equals the map built from the same
pairs in reverse order. -/
theorem C4_eq_spec (s t l : List (K × V)) (hl : KeysUnique l) :
    (mapEq s t = true ↔ s.length = t.length ∧ ∀ p ∈ s, get p.1 t = some p.2)
  ∧ mapEq (from_iter l) (from_iter l.reverse) = true := by
  refine ⟨mapEq_iff, ?_⟩
  have hrev : KeysUnique l.reverse := keysUnique_reverse hl
  rw [from_iter_unique hl, from_iter_unique hrev, mapEq_iff]
  refine ⟨by simp, ?_⟩
  intro p hp
  have hm : (p.1, p.2) ∈ l.reverse := by simpa using hp
  exact get_of_mem_unique hrev hm

/-- Witness for C4: a three-pair map equals the map built from the same
pairs in reverse insertion order. -/
theorem C4_eq_spec_witness :
    mapEq (from_iter [(1, 10), (2, 20), (3, 30)])
      (from_iter [(3, 30), (2, 20), (1, 10)]) = true := by
  have h := C4_eq_spec ([] : List (Nat × Nat)) [] [(1, 10), (2, 20), (3, 30)]
    (by rw [keysUnique_iff_nodup]; decide)
  exact h.2

/-- C8: converting a map into its plain pair sequence and rebuilding a map
from that sequence yields a map equal to the original. -/
theorem C8_round_trip (s : List (K × V)) (hu : KeysUnique s) :
    mapEq (from_iter (into_vec s)) s = true := by
  rw [into_vec, from_iter_unique hu, mapEq_iff]
  exact ⟨rfl, fun p hp => get_of_mem_unique hu (by simpa using hp)⟩

/-- Witness for C8 at a concrete two-pair map. -/
theorem C8_round_trip_witness :
    mapEq (from_iter (into_vec [(1, 10), (2, 20)])) [(1, 10), (2, 20)] = true :=
  C8_round_trip _ (by rw [keysUnique_iff_nodup]; decide)

/-- C6: `entry(k).or_insert(d)` yields the stored value, inserting `d`
only when `k` was absent: on a map without `k` the result is `d`, the
pair is appended and the length grows by one; a second `or_insert` with a
different default leaves the stored value and length unchanged; on a map
containing `k` the map is unchanged and the existing value is returned.
`or_insert_with` behaves identically, with the producer consulted only in
the vacant case (the occupied result does not depend on it). -/
theorem C6_or_insert_spec (s : List (K × V)) (k : K) (d e : V) (f g : Unit → V) :
    (get k s = none →
      or_insert k d s = (d, s ++ [(k, d)])
      ∧ (or_insert k d s).2.length = s.length + 1
      ∧ get k (or_insert k d s).2 = some d
      ∧ or_insert k e (or_insert k d s).2 = (d, (or_insert k d s).2))
  ∧ (∀ w, get k s = some w → or_insert k d s = (w, s))
  ∧ (get k s = none → or_insert_with k f s = (f (), s ++ [(k, f ())]))
  ∧ (∀ w, get k s = some w →
      or_insert_with k f s = (w, s) ∧ or_insert_with k f s = or_insert_with k g s) := by
  have hocc : ∀ (t : List (K × V)) (w dflt : V), get k t = some w →
      or_insert k dflt t = (w, t) := by
    intro t w dflt hw
    have h : findIdxK k t < t.length := findIdxK_lt_iff.mpr (by simp [hw])
    have h2 := get_eq_some_findIdxK h
    rw [hw] at h2
    have hv : t[findIdxK k t].2 = w := (Option.some.inj h2).symm
    rw [or_insert_eq_of_lt h, hv]
  have hge : get k s = none → ¬ findIdxK k s < s.length := by
    intro hnone
    rw [findIdxK_lt_iff, hnone]
    simp
  refine ⟨?_, fun w hw => hocc s w d hw, ?_, ?_⟩
  · intro hnone
    have h := hge hnone
    have heq : or_insert k d s = (d, s ++ [(k, d)]) := or_insert_eq_of_ge h
    have hget : get k (s ++ [(k, d)]) = some d := by
      rw [get_append, hnone]
      simp [get]
    refine ⟨heq, by rw [heq]; simp, by rw [heq]; exact hget, ?_⟩
    rw [heq]
    exact hocc _ d e hget
  · intro hnone
    simp [or_insert_with, hge hnone]
  · intro w hw
    have h : findIdxK k s < s.length := findIdxK_lt_iff.mpr (by simp [hw])
    have h2 := get_eq_some_findIdxK h
    rw [hw] at h2
    have hv : s[findIdxK k s].2 = w := (Option.some.inj h2).symm
    constructor
    · simp [or_insert_with, h, hv]
    · simp [or_insert_with, h]

/-- Witness for C6: inserting a default into an empty map, then observing
that a second `or_insert` keeps the existing value. -/
theorem C6_or_insert_spec_witness :
    or_insert 7 10 ([] : List (Nat × Nat)) = (10, [(7, 10)])
    ∧ or_insert 7 99 [(7, 10)] = (10, [(7, 10)]) := by
  have h := C6_or_insert_spec ([] : List (Nat × Nat)) 7 10 99 (fun _ => 10) (fun _ => 99)
  have h1 := h.1 (by decide)
  exact ⟨h1.1, h1.2.2.2⟩

/-- C7: indexed access fails exactly when the key is absent (the panic is
modelled by the error case of `Option::expect`), and on a present key it
returns exactly the value `get` returns. -/
theorem C7_index_spec (s : List (K × V)) (k : K) :
    (index k s = Except.error () ↔ get k s = none)
  ∧ (∀ v : V, get k s = some v → index k s = Except.ok v) := by
  constructor
  · unfold index
    cases hg : get k s <;> simp
  · intro v hv
    unfold index
    rw [hv]

/-- Witness for C7: a present key yields its value, an absent key yields
the failure case. -/
theorem C7_index_spec_witness :
    index 1 [(1, 5)] = Except.ok 5
    ∧ index 2 [(1, 5)] = (Except.error () : Except Unit Nat) := by
  have h := C7_index_spec [(1, 5)] 1
  have h2 := C7_index_spec [(1, 5)] 2
  exact ⟨h.2 5 (by decide), h2.1.mpr (by decide)⟩

theorem applySteps_replicate_true (l : List α) :
    applySteps (List.replicate l.length true) l = (l, []) := by
  induction l with
  | nil => simp [applySteps]
  | cons a t ih =>
    rw [List.length_cons, List.replicate_succ]
    simp [applySteps, iterNext, ih]

theorem applySteps_length (dirs : List Bool) (l : List α) :
    (applySteps dirs l).1.length + (applySteps dirs l).2.length = l.length := by
  induction dirs generalizing l with
  | nil => simp [applySteps]
  | cons d ds ih =>
    cases d
    · cases l with
      | nil => simp [applySteps, iterNextBack]
      | cons a t =>
        have h := ih ((a :: t).dropLast)
        simp only [applySteps, iterNextBack, Bool.false_eq_true, if_false,
          List.length_cons, List.length_dropLast_cons] at h ⊢
        omega
    · cases l with
      | nil => simp [applySteps, iterNext]
      | cons a t =>
        have h := ih t
        simp only [applySteps, iterNext, if_true, List.length_cons] at h ⊢
        omega

theorem keysSteps_eq (dirs : List Bool) (l : List (K × V)) :
    keysSteps dirs l = ((applySteps dirs l).1.map Prod.fst, (applySteps dirs l).2) := by
  induction dirs generalizing l with
  | nil => simp [keysSteps, applySteps]
  | cons d ds ih =>
    cases d
    · cases l with
      | nil => simp [keysSteps, applySteps, keysNextBack, iterNextBack]
      | cons a t => simp [keysSteps, applySteps, keysNextBack, iterNextBack, ih]
    · cases l with
      | nil => simp [keysSteps, applySteps, keysNext, iterNext]
      | cons a t => simp [keysSteps, applySteps, keysNext, iterNext, ih]

theorem valuesSteps_eq (dirs : List Bool) (l : List (K × V)) :
    valuesSteps dirs l = ((applySteps dirs l).1.map Prod.snd, (applySteps dirs l).2) := by
  induction dirs generalizing l with
  | nil => simp [valuesSteps, applySteps]
  | cons d ds ih =>
    cases d
    · cases l with
      | nil => simp [valuesSteps, applySteps, valuesNextBack, iterNextBack]
      | cons a t => simp [valuesSteps, applySteps, valuesNextBack, iterNextBack, ih]
    · cases l with
      | nil => simp [valuesSteps, applySteps, valuesNext, iterNext]
      | cons a t => simp [valuesSteps, applySteps, valuesNext, iterNext, ih]

/-- C9: the borrowing pairs iterator driven forward yields exactly the
stored pairs in front-to-back storage order; after any mix of front and
back steps, the reported remaining count equals the true number of items
not yet yielded; and the `Keys`/`Values` iterators are exactly the key
and value projections of the pairs iterator with the same order and
count behaviour. -/
theorem C9_iter_spec (s : List (K × V)) (dirs : List Bool) :
    applySteps (List.replicate s.length true) s = (s, ([] : List (K × V)))
  ∧ (applySteps dirs s).1.length + iterLen (applySteps dirs s).2 = s.length
  ∧ keysSteps dirs s = ((applySteps dirs s).1.map Prod.fst, (applySteps dirs s).2)
  ∧ valuesSteps dirs s = ((applySteps dirs s).1.map Prod.snd, (applySteps dirs s).2) :=
  ⟨applySteps_replicate_true s, applySteps_length dirs s,
    keysSteps_eq dirs s, valuesSteps_eq dirs s⟩

/-- C5: the draining iterator yields every stored pair exactly once, in
current storage order (front-to-back), and once the drain completes the
map has length zero. -/
theorem C5_drain_spec (s : List (K × V)) :
    applySteps (List.replicate (drain s).1.length true) (drain s).1 = (s, [])
  ∧ (∀ p : K × V, (drain s).1.count p = s.count p)
  ∧ (drain s).2.length = 0 :=
  ⟨applySteps_replicate_true s, fun _ => rfl, rfl⟩

theorem get_extend (q : K) (l s : List (K × V)) :
    get q (extend s l) = (lastVal q l).or (get q s) := by
  induction l generalizing s with
  | nil => simp [extend, lastVal]
  | cons p t ih =>
    obtain ⟨k, v⟩ := p
    show get q (extend (insert k v s).2 t) = _
    rw [ih]
    unfold lastVal
    rw [List.reverse_cons, List.find?_append]
    cases hqt : t.reverse.find? (fun p => q == p.1) with
    | some r => simp [lastVal, hqt]
    | none =>
      by_cases hqk : q = k
      · simp [lastVal, hqt, get_insert, hqk, List.find?_cons]
      · simp [lastVal, hqt, get_insert, hqk, List.find?_cons]

theorem newKeys_cons_of_absent {k : K} {v : V} {s t : List (K × V)}
    (hnone : get k s = none) :
    newKeys s ((k, v) :: t) = Insert.insert k (newKeys s t) := by
  unfold newKeys
  have hkn : (get k s).isNone = true := by simp [hnone]
  simp [List.filter_cons, hkn, List.toFinset_cons]

theorem newKeys_cons_of_present {k : K} {v : V} {s t : List (K × V)}
    (hsome : (get k s).isSome) :
    newKeys s ((k, v) :: t) = newKeys s t := by
  unfold newKeys
  have hkn : (get k s).isNone = false := by
    cases hg : get k s
    · rw [hg] at hsome
      simp at hsome
    · simp
  simp [List.filter_cons, hkn]

theorem newKeys_insert_of_present {k : K} {v : V} {s t : List (K × V)}
    (hsome : (get k s).isSome) :
    newKeys (insert k v s).2 t = newKeys s t := by
  unfold newKeys
  congr 1
  apply List.filter_congr
  intro q _
  rw [get_insert]
  by_cases hq : q = k
  · subst hq
    cases hg : get q s
    · rw [hg] at hsome
      simp at hsome
    · simp
  · rw [if_neg hq]

theorem newKeys_insert_of_absent {k : K} {v : V} {s t : List (K × V)} :
    newKeys (insert k v s).2 t = (newKeys s t).erase k := by
  ext q
  simp only [newKeys, List.mem_toFinset, List.mem_filter, Finset.mem_erase]
  constructor
  · rintro ⟨hm, hp⟩
    rw [get_insert] at hp
    by_cases hq : q = k
    · rw [if_pos hq] at hp
      simp at hp
    · rw [if_neg hq] at hp
      exact ⟨hq, hm, hp⟩
  · rintro ⟨hq, hm, hp⟩
    refine ⟨hm, ?_⟩
    rw [get_insert, if_neg hq]
    exact hp

theorem length_extend (l s : List (K × V)) :
    (extend s l).length = s.length + (newKeys s l).card := by
  induction l generalizing s with
  | nil => simp [extend, newKeys]
  | cons p t ih =>
    obtain ⟨k, v⟩ := p
    show (extend (insert k v s).2 t).length = _
    rw [ih]
    by_cases h : (get k s).isSome
    · rw [length_insert, if_pos h, newKeys_insert_of_present h, newKeys_cons_of_present h]
    · have hnone : get k s = none := Option.not_isSome_iff_eq_none.mp h
      rw [length_insert, if_neg h, newKeys_insert_of_absent, newKeys_cons_of_absent hnone]
      have hins : Insert.insert k (newKeys s t) = Insert.insert k ((newKeys s t).erase k) :=
        Finset.ext fun x => by by_cases hx : x = k <;> simp [hx]
      rw [hins, Finset.card_insert_of_not_mem (Finset.not_mem_erase _ _)]
      omega

/-- C10: construction from an iterable is `extend` on an empty map, and
`extend` inserts the supplied pairs one at a time in sequence order;
consequently the last pair wins among equal keys (a key's final value is
that of the last supplied pair with that key, falling back to the
original map), and the length grows by the number of distinct new keys,
not by the number of supplied pairs. -/
theorem C10_extend_spec (s t : List (K × V)) (k q : K) (v : V) (l : List (K × V)) :
    from_iter l = extend [] l
  ∧ extend s ((k, v) :: t) = extend (insert k v s).2 t
  ∧ get q (extend s l) = (lastVal q l).or (get q s)
  ∧ (extend s l).length = s.length + (newKeys s l).card :=
  ⟨rfl, rfl, get_extend q l s, length_extend l s⟩

end LinearMap
